import Mathlib

/- Verification development for the TI_TE_wish MRI pipeline (TI_TE_wish.py).

   The pipeline partitions interleaved raw echo data into k-spaces and
   Fourier-reconstructs magnitude images (get_images), reorders images for
   inversion-recovery acquisitions (reorder_forT1IR), fits relaxation models
   per pixel (calculate_maps / task), and synthesizes theoretical images
   (theoret_MRI).

   Modelling conventions:
   - numpy complex entries are modelled as pairs of rationals (CQ);
     real-valued pixels as rationals; complex magnitudes land in the reals.
   - External library calls (np.fft.fft2, np.exp, scipy curve_fit) are
     modelled as function parameters: the properties under verification do
     not depend on their numeric values, only on how the pipeline uses them.
   - Python lists / numpy stacks are Lean lists; a 2-D array is a list of
     rows; indexing uses getD with an explicit default, matching in-range
     numpy indexing at the indices the theorems quantify over.
   - The in-place numpy mutation in theoret_MRI is modelled with an explicit
     store of allocated arrays (Store), so aliasing between the returned
     TheoretImgs list and the rescaled buffers is captured faithfully.
-/

/-- Complex number as stored in a numpy complex array: (real part, imaginary part). -/
abbrev CQ : Type := ℚ × ℚ

/-- Real-valued 2-D array (image or parametric map): a list of rows. -/
abbrev Mat2 : Type := List (List ℚ)

/-- Entry of a 2-D array with an explicit default, modelling in-range numpy
    indexing. -/
def matGet {α : Type} (d : α) (m : List (List α)) (i j : ℕ) : α :=
  (m.getD i []).getD j d

/-- Maximum entry of a list of rationals, modelling ndarray.max() (total, with
    the head as base value; the pipeline only applies it to nonempty data). -/
def npMax (l : List ℚ) : ℚ := l.foldl max (l.headD 0)

/-- Maximum entry of a 2-D array, modelling ndarray.max() on 2-D data. -/
def npMax2 (m : Mat2) : ℚ := npMax m.flatten

/-- Error raised by the Python runtime, as observable from get_images. -/
inductive PyErr where
  | valueError : PyErr
  | zeroDivisionError : PyErr
deriving DecidableEq

/-- Row indices selected by the numpy slice echoes[k : R : N]: k, k+N, k+2N, ...
    while below R; its length is the ceiling of (R-k)/N, written with
    truncated subtraction. -/
def sliceIdx (R N k : ℕ) : List ℕ := List.range' k ((R - k + N - 1) / N) N

/-- Rows of echoes selected by the slice echoes[k : echoes.shape[0] : N]
    (line 49 of the source: one k-space of the de-interleaving). -/
def sliceRows (N : ℕ) (echoes : List (List CQ)) (k : ℕ) : List (List CQ) :=
  (sliceIdx echoes.length N k).map (fun r => echoes.getD r [])

/-- Loop of lines 47-49: kspaces[k] = echoes[k : R : N] for k in range(N).
    Each numpy assignment requires the slice to match the preallocated row
    count int(R/N); a mismatch raises ValueError (broadcast failure), which
    aborts the loop at the first offending k. -/
def buildKspaces (N : ℕ) (echoes : List (List CQ)) :
    List ℕ → Except PyErr (List (List (List CQ)))
  | [] => Except.ok []
  | k :: ks =>
      if (sliceRows N echoes k).length = echoes.length / N then
        (buildKspaces N echoes ks).map (fun rest => sliceRows N echoes k :: rest)
      else Except.error PyErr.valueError

/-- Partitioning stage of get_images (lines 44-49). -/
def kspaces_build (N : ℕ) (echoes : List (List CQ)) :
    Except PyErr (List (List (List CQ))) :=
  buildKspaces N echoes (List.range N)

/-- Value of the partitioning stage when every assignment succeeds. -/
def kspaces_of (N : ℕ) (echoes : List (List CQ)) : List (List (List CQ)) :=
  (List.range N).map (sliceRows N echoes)

/-- Builds an h-by-w array from an index function. -/
def mkMat {α : Type} (h w : ℕ) (f : ℕ → ℕ → α) : List (List α) :=
  (List.range h).map (fun i => (List.range w).map (fun j => f i j))

/-- np.fft.fftshift on a 2-D array of logical shape h-by-w: each axis is
    rolled by half its length, moving the zero-frequency corner to the
    center. -/
def fftshiftL (h w : ℕ) (m : List (List CQ)) : List (List CQ) :=
  mkMat h w (fun i j =>
    matGet (0, 0) m ((i + (h - h / 2)) % h) ((j + (w - w / 2)) % w))

/-- np.flip(ft, (1, 0)): reverse both axes of an h-by-w array. -/
def flipL (h w : ℕ) (m : List (List CQ)) : List (List CQ) :=
  mkMat h w (fun i j => matGet (0, 0) m (h - 1 - i) (w - 1 - j))

/-- np.transpose on an h-by-w array, giving a w-by-h array. -/
def transposeL (h w : ℕ) (m : List (List CQ)) : List (List CQ) :=
  mkMat w h (fun i j => matGet (0, 0) m j i)

/-- Magnitude of a complex entry, modelling numpy abs on complex data. -/
noncomputable def cAbs (z : CQ) : ℝ := Real.sqrt (z.1 ^ 2 + z.2 ^ 2)

/-- Elementwise magnitude of a complex 2-D array. -/
noncomputable def absL (m : List (List CQ)) : List (List ℝ) :=
  m.map (List.map cAbs)

/-- Reconstruction of one k-space (lines 55-58): ft = fft2(kspace);
    ft = fftshift(ft); ft = transpose(flip(ft, (1, 0))); image = abs(ft).
    np.fft.fft2 is an external library routine, taken as a parameter. -/
noncomputable def reconstructL (fft2 : List (List CQ) → List (List CQ))
    (h w : ℕ) (kspace : List (List CQ)) : List (List ℝ) :=
  absL (transposeL h w (flipL h w (fftshiftL h w (fft2 kspace))))

/-- get_images (lines 41-60): partition the echoes into number_of_images
    k-spaces, then reconstruct each. number_of_images = 0 raises
    ZeroDivisionError at int(echoes.shape[0]/number_of_images); a row count
    not divisible by number_of_images makes the first k-space assignment
    raise ValueError, so the Fourier stage is never reached (the Except
    short-circuits before the reconstruction map runs). -/
noncomputable def get_images (fft2 : List (List CQ) → List (List CQ))
    (number_of_images : ℕ) (echoes : List (List CQ)) :
    Except PyErr (List (List (List ℝ))) :=
  if number_of_images = 0 then Except.error PyErr.zeroDivisionError
  else
    (kspaces_build number_of_images echoes).map
      (fun ks => ks.map (reconstructL fft2 (echoes.length / number_of_images)
        ((echoes.headD []).length)))

/-- T1 relaxation model (lines 63-66): SI = |Mo (1 - a exp(-x/T1)) + C|.
    np.exp is external; it enters as the parameter fexp. -/
def T1_function (fexp : ℚ → ℚ) (x T1 Mo C a : ℚ) : ℚ :=
  |Mo * (1 - a * fexp (-x / T1)) + C|

/-- T2 relaxation model (lines 69-72): SI = Mo exp(-x/T2) + C. -/
def T2_function (fexp : ℚ → ℚ) (x T2 Mo C : ℚ) : ℚ :=
  Mo * fexp (-x / T2) + C

/-- Elementwise application of a ternary scalar function over three equally
    shaped 2-D arrays (numpy broadcasting of the model over the map triple). -/
def elemwise3 (f : ℚ → ℚ → ℚ → ℚ) (A B C : Mat2) : Mat2 :=
  (A.zip (B.zip C)).map (fun rows =>
    (rows.1.zip (rows.2.1.zip rows.2.2)).map (fun v => f v.1 v.2.1 v.2.2))

/-- T1 model evaluated elementwise over a map triple, inversion efficiency a. -/
def T1_image (fexp : ℚ → ℚ) (x : ℚ) (Tm Mo Cm : Mat2) (a : ℚ) : Mat2 :=
  elemwise3 (fun t m c => T1_function fexp x t m c a) Tm Mo Cm

/-- T2 model evaluated elementwise over a map triple. -/
def T2_image (fexp : ℚ → ℚ) (x : ℚ) (Tm Mo Cm : Mat2) : Mat2 :=
  elemwise3 (fun t m c => T2_function fexp x t m c) Tm Mo Cm

/-- SI_image of one (requested time, run) pair (lines 151-154): for the T1
    model the inversion efficiency argument is fixed to 2. -/
def SI_of (fexp : ℚ → ℚ) (isT1 : Bool) (x : ℚ) (Tm Mo Cm : Mat2) : Mat2 :=
  if isT1 then T1_image fexp x Tm Mo Cm 2 else T2_image fexp x Tm Mo Cm

/-- Outcome of scipy.optimize.curve_fit as used by task: the fitted parameter
    vector, or a RuntimeError on failure to converge within maxfev.
    Arguments: model selector (function == T1_function), xdata (T_train),
    ydata (points), bounds (lower, upper), maxfev. -/
abbrev CurveFit : Type :=
  Bool → List ℚ → List ℚ → (List ℚ × List ℚ) → ℕ → Except Unit (List ℚ)

/-- Per-pixel sample vector slice1[:, k, j] (line 97). -/
def pointsAt (slice1 : List Mat2) (k j : ℕ) : List ℚ :=
  slice1.map (fun img => matGet 0 img k j)

/-- Bounds of lines 99-104, computed from the maximum of the pixel's own
    sample vector (0.001, 0.9, 1.85, 2.05 written as exact rationals). -/
def taskBounds (isT1 : Bool) (points : List ℚ) : List ℚ × List ℚ :=
  let m := npMax points
  if isT1 then
    ([1 / 1000, m * (9 / 10), -(m / 100 + 1), 37 / 20],
     [7000, 2 * m + 1, m / 100 + 1, 41 / 20])
  else
    ([1 / 1000, m * (9 / 10), -(m / 100 + 1)],
     [4000, 2 * m + 1, m / 100 + 1])

/-- Per-pixel fit task (lines 96-115): curve_fit inside try/except
    RuntimeError, with the sentinel parameter vector substituted on failure
    (1e-6 written as the exact rational 1/1000000). -/
def task (cf : CurveFit) (isT1 : Bool) (T_train : List ℚ) (slice1 : List Mat2)
    (k j : ℕ) : List ℚ :=
  let points := pointsAt slice1 k j
  match cf isT1 T_train points (taskBounds isT1 points) 1000 with
  | Except.ok ps => ps
  | Except.error _ =>
      if isT1 then [1 / 1000000, npMax points, 0, 2]
      else [1 / 1000000, npMax points, 0]

/-- Images of run i: slice1 = images[nE_nI*i : nE_nI*(i+1)] (lines 85-88). -/
def run_slice (nE_nI : ℕ) (images : List Mat2) (i : ℕ) : List Mat2 :=
  (images.drop (nE_nI * i)).take nE_nI

/-- One parametric map of run i: entry (k, j) is component p of the parameter
    vector fitted at pixel (k, j) (lines 94-127; joblib.Parallel returns the
    per-column results in task order j = 0, 1, ..., and the per-row lists are
    reassembled into the spatial shape (slice1.shape[1], slice1.shape[2])). -/
def map_of_run (cf : CurveFit) (isT1 : Bool) (T_train : List ℚ)
    (images : List Mat2) (p i : ℕ) : Mat2 :=
  let slice1 := run_slice T_train.length images i
  mkMat (slice1.headD []).length ((slice1.headD []).headD []).length
    (fun k j => (task cf isT1 T_train slice1 k j).getD p 0)

/-- calculate_maps (lines 75-131): one (T, Mo, C) map triple per run of
    len(T_train) consecutive images. Worker-pool details (loky backend,
    executor shutdown) have no bearing on the computed values and are not
    modelled. -/
def calculate_maps (cf : CurveFit) (isT1 : Bool) (T_train : List ℚ)
    (images : List Mat2) : List Mat2 × List Mat2 × List Mat2 :=
  let runs := List.range (images.length / T_train.length)
  (runs.map (map_of_run cf isT1 T_train images 0),
   runs.map (map_of_run cf isT1 T_train images 1),
   runs.map (map_of_run cf isT1 T_train images 2))

/-- curve_fit instance that fails to converge at every pixel. -/
def cf_fail : CurveFit := fun _ _ _ _ _ => Except.error ()

/-- Decimal digit character: chr(48 + d). -/
def digitChar (d : ℕ) : Char := Char.ofNat (48 + d)

/-- Little-endian base-10 digits of n, with explicit fuel (first argument). -/
def digitsLE : ℕ → ℕ → List ℕ
  | 0, _ => []
  | fuel + 1, n => if n = 0 then [] else n % 10 :: digitsLE fuel (n / 10)

/-- Decimal rendering of a natural number, modelling Python str(n). -/
def natStr (n : ℕ) : List Char :=
  if n = 0 then [digitChar 0] else ((digitsLE n n).reverse).map digitChar

/-- Characters of the fixed filename prefix before the run index. -/
def slicePre : List Char := ['s', 'l', 'i', 'c', 'e', '_']

/-- Weighting label of the filename: TI for the T1 model, TE otherwise
    (lines 136-139). -/
def weightLbl (isT1 : Bool) : List Char :=
  if isT1 then ['T', 'I'] else ['T', 'E']

/-- Characters of the fixed filename suffix after the requested time. -/
def msSuffix : List Char := ['m', 's', '.', 'p', 'n', 'g']

/-- Filename of line 159, slice_(j+1)_(txt)_(t)ms.png, as its character
    list; requested times are integers (as in the source's configuration). -/
def fname (isT1 : Bool) (j t : ℕ) : List Char :=
  slicePre ++ natStr (j + 1) ++ '_' :: (weightLbl isT1 ++ '_' :: (natStr t ++ msSuffix))

/-- SI_image scaled by 255.0 / its maximum (line 158), in exact rational
    arithmetic; faithful whenever the maximum is nonzero (the zero-maximum
    IEEE behaviour is modelled separately by rescaleF). -/
def rescaleQ (m : Mat2) : Mat2 :=
  m.map (List.map (fun v => v * (255 / npMax2 m)))

/-- Store of allocated numpy arrays: addresses are list positions. Python
    variables and list entries hold references into this store, so the
    in-place multiplication on SI_image is visible through every alias. -/
structure Store (α : Type) where
  cells : List α

/-- Allocation of a fresh array: appends a cell, returns its address. -/
def alloc {α : Type} (st : Store α) (m : α) : Store α × ℕ :=
  (⟨st.cells ++ [m]⟩, st.cells.length)

/-- In-place overwrite of the array at address a. -/
def writeC {α : Type} (st : Store α) (a : ℕ) (m : α) : Store α :=
  ⟨st.cells.set a m⟩

/-- Array currently held at address a. -/
def readC {α : Type} (d : α) (st : Store α) (a : ℕ) : α :=
  st.cells.getD a d

/-- State threaded through the loops of theoret_MRI: the store, the addresses
    appended to TheoretImgs, and the filenames passed to plt.imsave, in
    order. -/
structure TMState where
  store : Store Mat2
  imgs : List ℕ
  files : List (List Char)

/-- Body of the loops of theoret_MRI for the pair (i, j) (lines 151-160):
    evaluate the model over run j's maps at T_wish[i], append the fresh
    array's reference to TheoretImgs, then scale that same array in place by
    255/max and save it under slice_(j+1)_(txt)_(T_wish[i])ms.png. -/
def tm_step (fexp : ℚ → ℚ) (isT1 : Bool) (T_wish : List ℕ)
    (Ta Moa Ca : List ℕ) (s : TMState) (ij : ℕ × ℕ) : TMState :=
  let t := T_wish.getD ij.1 0
  let SI := SI_of fexp isT1 (t : ℚ) (readC [] s.store (Ta.getD ij.2 0))
      (readC [] s.store (Moa.getD ij.2 0)) (readC [] s.store (Ca.getD ij.2 0))
  let stA := alloc s.store SI
  { store := writeC stA.1 stA.2 (rescaleQ SI),
    imgs := s.imgs ++ [stA.2],
    files := s.files ++ [fname isT1 ij.2 t] }

/-- Iteration order of the two nested loops of lines 147-149: outer over
    requested times i, inner over runs j. -/
def tm_pairs (R K : ℕ) : List (ℕ × ℕ) :=
  (List.range R).flatMap (fun i => (List.range K).map (fun j => (i, j)))

/-- theoret_MRI (lines 134-162) over the store: the maps of the K runs live
    at the given addresses; requested times are naturals (milliseconds, as in
    the source's integer configuration lists). Output-directory handling
    (shutil.rmtree / os.makedirs) is an external side effect with no bearing
    on the computed arrays and filenames. -/
def theoret_MRI (fexp : ℚ → ℚ) (isT1 : Bool) (T_wish : List ℕ)
    (Ta Moa Ca : List ℕ) (st0 : Store Mat2) : TMState :=
  (tm_pairs T_wish.length Moa.length).foldl
    (tm_step fexp isT1 T_wish Ta Moa Ca) { store := st0, imgs := [], files := [] }

/-- calculate_maps lifted over a store of image stacks: the stack is read
    from its address and the three map lists are computed. The body of
    calculate_maps only reads images (array slicing and indexing; curve_fit
    receives its data by value per scipy's contract) and builds fresh result
    lists, so its translation performs no store write. -/
def calculate_maps_heap (cf : CurveFit) (isT1 : Bool) (T_train : List ℚ)
    (imagesAddr : ℕ) (st : Store (List Mat2)) :
    Store (List Mat2) × (List Mat2 × List Mat2 × List Mat2) :=
  (st, calculate_maps cf isT1 T_train (readC [] st imagesAddr))

/-- Leading-axis view of an image stack for reorder_forT1IR: the stack is a
    pair of the saved images.shape[0] (line 166) and an index function; the
    images themselves are opaque values. -/
def reshape2 {α : Type} (cols : ℕ) (v : ℕ → α) : ℕ → ℕ → α :=
  fun t s => v (t * cols + s)

/-- np.transpose(-, (1, 0, 2, 3)) acting on the leading two axes. -/
def transpose2 {α : Type} (m : ℕ → ℕ → α) : ℕ → ℕ → α :=
  fun s t => m t s

/-- Row-major flattening of the leading two axes back to one axis. -/
def flatten2 {α : Type} (cols : ℕ) (m : ℕ → ℕ → α) : ℕ → α :=
  fun idx => m (idx / cols) (idx % cols)

/-- reorder_forT1IR (lines 165-170): reshape to
    (nI, number_of_images/nI, H, W), transpose the leading two axes, reshape
    back to the saved original shape. -/
def reorder_forT1IR {α : Type} (nI : ℕ) (images : ℕ × (ℕ → α)) : ℕ × (ℕ → α) :=
  (images.1, flatten2 nI (transpose2 (reshape2 (images.1 / nI) images.2)))

/-- IEEE-754 double as produced by the rescaling statement: a finite value
    (kept as an exact rational), a signed infinity, or NaN. Rounding of
    finite results is not modelled; every operation evaluated by the theorems
    below is exact in IEEE arithmetic (operands 0 and 255). -/
inductive FVal where
  | fin : ℚ → FVal
  | inf : FVal
  | ninf : FVal
  | nan : FVal
deriving DecidableEq

/-- IEEE division of finite x by finite y: x/0 is NaN for x = 0 and a signed
    infinity otherwise. -/
def fdiv (x y : ℚ) : FVal :=
  if y = 0 then (if x = 0 then FVal.nan else if 0 < x then FVal.inf else FVal.ninf)
  else FVal.fin (x / y)

/-- IEEE product of finite x with f: 0 times an infinity is NaN. -/
def fmulF (x : ℚ) (f : FVal) : FVal :=
  match f with
  | FVal.fin r => FVal.fin (x * r)
  | FVal.inf => if x = 0 then FVal.nan else if 0 < x then FVal.inf else FVal.ninf
  | FVal.ninf => if x = 0 then FVal.nan else if 0 < x then FVal.ninf else FVal.inf
  | FVal.nan => FVal.nan

/-- Finiteness predicate on IEEE values. -/
def isFiniteF : FVal → Bool
  | FVal.fin _ => true
  | _ => false

/-- SI_image *= 255.0/SI_image.max() (line 158) under IEEE semantics: the
    scale factor 255/max is computed once, then multiplied into every
    pixel. -/
def rescaleF (m : Mat2) : List (List FVal) :=
  m.map (List.map (fun v => fmulF v (fdiv 255 (npMax2 m))))

/-- Value of a little-endian digit list (inverse of digitsLE, used to show
    the decimal rendering is injective). -/
def ofDigitsLE (l : List ℕ) : ℕ := l.foldr (fun d acc => d + 10 * acc) 0

/- Helper lemmas. -/

theorem getD_nonneg (l : List ℝ) (h : ∀ x ∈ l, 0 ≤ x) (j : ℕ) :
    0 ≤ l.getD j 0 := by
  rcases lt_or_ge j l.length with hj | hj
  · rw [List.getD_eq_getElem l 0 hj]
    exact h _ (l.getElem_mem hj)
  · rw [List.getD_eq_default l 0 hj]

theorem sliceIdx_length_of_dvd (R N k : ℕ) (hN : 0 < N) (hd : N ∣ R)
    (hk : k < N) : (sliceIdx R N k).length = R / N := by
  obtain ⟨q, rfl⟩ := hd
  simp only [sliceIdx, List.length_range']
  rcases Nat.eq_zero_or_pos q with hq | hq
  · subst hq
    have h0 : N * 0 - k + N - 1 = N - 1 := by omega
    have h1 : N * 0 = 0 := by omega
    rw [h0, h1, Nat.zero_div, Nat.div_eq_of_lt (by omega)]
  · have hNq : N ≤ N * q := Nat.le_mul_of_pos_right N hq
    have h1 : N * q - k + N - 1 = N * q + (N - 1 - k) := by omega
    rw [h1, Nat.mul_add_div hN, Nat.div_eq_of_lt (by omega),
      Nat.mul_div_cancel_left q hN]
    omega

theorem sliceIdx_length_not_dvd (R N : ℕ) (hN : 0 < N) (hnd : ¬ N ∣ R) :
    (sliceIdx R N 0).length = R / N + 1 := by
  simp only [sliceIdx, List.length_range']
  have h1 : R % N ≠ 0 := fun h => hnd (Nat.dvd_of_mod_eq_zero h)
  have h2 : N * (R / N) + R % N = R := Nat.div_add_mod R N
  have h3 : R % N < N := Nat.mod_lt _ hN
  have h5 : N * (R / N + 1) = N * (R / N) + N := Nat.mul_succ N (R / N)
  have h4 : R - 0 + N - 1 = N * (R / N + 1) + (R % N - 1) := by
    rw [h5]
    omega
  rw [h4, Nat.mul_add_div hN, Nat.div_eq_of_lt (show R % N - 1 < N by omega)]

theorem buildKspaces_ok (N : ℕ) (echoes : List (List CQ)) (l : List ℕ)
    (h : ∀ k ∈ l, (sliceRows N echoes k).length = echoes.length / N) :
    buildKspaces N echoes l = Except.ok (l.map (sliceRows N echoes)) := by
  induction l with
  | nil => rfl
  | cons k ks ih =>
      simp only [buildKspaces, if_pos (h k (List.mem_cons_self k ks)),
        ih (fun x hx => h x (List.mem_cons_of_mem _ hx))]
      rfl

theorem kspaces_build_err (N : ℕ) (echoes : List (List CQ)) (hN : 0 < N)
    (hnd : ¬ N ∣ echoes.length) :
    kspaces_build N echoes = Except.error PyErr.valueError := by
  obtain ⟨m, rfl⟩ := Nat.exists_eq_succ_of_ne_zero (Nat.pos_iff_ne_zero.mp hN)
  rw [kspaces_build, List.range_succ_eq_map]
  have hlen : (sliceRows (m + 1) echoes 0).length ≠ echoes.length / (m + 1) := by
    simp only [sliceRows, List.length_map]
    rw [sliceIdx_length_not_dvd _ _ hN hnd]
    exact Nat.succ_ne_self _
  simp only [buildKspaces, if_neg hlen]

theorem kspaces_build_ok (N : ℕ) (echoes : List (List CQ)) (hN : 0 < N)
    (hd : N ∣ echoes.length) :
    kspaces_build N echoes = Except.ok (kspaces_of N echoes) := by
  have h : ∀ k ∈ List.range N,
      (sliceRows N echoes k).length = echoes.length / N := by
    intro k hk
    simp only [sliceRows, List.length_map]
    exact sliceIdx_length_of_dvd _ _ _ hN hd (List.mem_range.mp hk)
  unfold kspaces_build kspaces_of
  exact buildKspaces_ok N echoes _ h

theorem kspaces_of_getD (N : ℕ) (echoes : List (List CQ)) (k : ℕ) (hk : k < N) :
    (kspaces_of N echoes).getD k [] = sliceRows N echoes k := by
  have hk2 : k < (kspaces_of N echoes).length := by
    simpa [kspaces_of] using hk
  rw [List.getD_eq_getElem _ _ hk2]
  simp [kspaces_of]

theorem sliceRows_getD (N : ℕ) (echoes : List (List CQ)) (k n : ℕ)
    (hn : n < (sliceRows N echoes k).length) :
    (sliceRows N echoes k).getD n [] = echoes.getD (k + N * n) [] := by
  rw [List.getD_eq_getElem _ _ hn]
  simp only [sliceRows, List.getElem_map]
  congr 1
  simp [sliceIdx, List.getElem_range']

/-- C1: for a raw echo array whose row count is exactly divisible by the
    image count, the partitioning stage of get_images succeeds and returns
    exactly number_of_images k-spaces, each with echoes.length / N rows of
    width W, and row n of k-space k is raw echo row k + N * n
    (de-interleaving with stride N). -/
theorem partition_deinterleaves (N W : ℕ) (echoes : List (List CQ))
    (hN : 0 < N) (hdvd : N ∣ echoes.length)
    (hrect : ∀ row ∈ echoes, row.length = W) :
    kspaces_build N echoes = Except.ok (kspaces_of N echoes) ∧
    (kspaces_of N echoes).length = N ∧
    (∀ k, k < N → ((kspaces_of N echoes).getD k []).length = echoes.length / N) ∧
    (∀ k n, k < N → n < echoes.length / N →
      ((kspaces_of N echoes).getD k []).getD n [] = echoes.getD (k + N * n) [] ∧
      (((kspaces_of N echoes).getD k []).getD n []).length = W) := by
  have hlen : ∀ k, k < N → (sliceRows N echoes k).length = echoes.length / N := by
    intro k hk
    simp only [sliceRows, List.length_map]
    exact sliceIdx_length_of_dvd _ _ _ hN hdvd hk
  refine ⟨kspaces_build_ok N echoes hN hdvd, by simp [kspaces_of], ?_, ?_⟩
  · intro k hk
    rw [kspaces_of_getD N echoes k hk]
    exact hlen k hk
  · intro k n hk hn
    have hidx : k + N * n < echoes.length := by
      obtain ⟨q, hq⟩ := hdvd
      have hq2 : echoes.length / N = q := by
        rw [hq, Nat.mul_div_cancel_left q hN]
      have hn2 : n < q := by rwa [hq2] at hn
      have hmul : N * (n + 1) ≤ N * q := Nat.mul_le_mul_left N hn2
      have : N * n + N ≤ N * q := by
        calc N * n + N = N * (n + 1) := by ring
        _ ≤ N * q := hmul
      omega
    have hrow : ((kspaces_of N echoes).getD k []).getD n []
        = echoes.getD (k + N * n) [] := by
      rw [kspaces_of_getD N echoes k hk]
      exact sliceRows_getD N echoes k n (by rw [hlen k hk]; exact hn)
    refine ⟨hrow, ?_⟩
    rw [hrow, List.getD_eq_getElem _ _ hidx]
    exact hrect _ (List.getElem_mem hidx)

/-- Witness for partition_deinterleaves: four echo rows of width one,
    de-interleaved with stride two. -/
theorem partition_deinterleaves_witness :
    (0 < 2 ∧ 2 ∣ ([[((0 : ℚ), (0 : ℚ))], [((1 : ℚ), (0 : ℚ))],
        [((2 : ℚ), (0 : ℚ))], [((3 : ℚ), (0 : ℚ))]] : List (List CQ)).length ∧
      ∀ row ∈ ([[((0 : ℚ), (0 : ℚ))], [((1 : ℚ), (0 : ℚ))],
        [((2 : ℚ), (0 : ℚ))], [((3 : ℚ), (0 : ℚ))]] : List (List CQ)),
        row.length = 1) ∧
    (kspaces_build 2 [[((0 : ℚ), (0 : ℚ))], [((1 : ℚ), (0 : ℚ))],
        [((2 : ℚ), (0 : ℚ))], [((3 : ℚ), (0 : ℚ))]]
      = Except.ok (kspaces_of 2 [[((0 : ℚ), (0 : ℚ))], [((1 : ℚ), (0 : ℚ))],
        [((2 : ℚ), (0 : ℚ))], [((3 : ℚ), (0 : ℚ))]]) ∧
      (kspaces_of 2 [[((0 : ℚ), (0 : ℚ))], [((1 : ℚ), (0 : ℚ))],
        [((2 : ℚ), (0 : ℚ))], [((3 : ℚ), (0 : ℚ))]]).length = 2 ∧
      (∀ k, k < 2 →
        ((kspaces_of 2 [[((0 : ℚ), (0 : ℚ))], [((1 : ℚ), (0 : ℚ))],
          [((2 : ℚ), (0 : ℚ))], [((3 : ℚ), (0 : ℚ))]]).getD k []).length
          = ([[((0 : ℚ), (0 : ℚ))], [((1 : ℚ), (0 : ℚ))], [((2 : ℚ), (0 : ℚ))],
            [((3 : ℚ), (0 : ℚ))]] : List (List CQ)).length / 2) ∧
      (∀ k n, k < 2 →
        n < ([[((0 : ℚ), (0 : ℚ))], [((1 : ℚ), (0 : ℚ))], [((2 : ℚ), (0 : ℚ))],
          [((3 : ℚ), (0 : ℚ))]] : List (List CQ)).length / 2 →
        ((kspaces_of 2 [[((0 : ℚ), (0 : ℚ))], [((1 : ℚ), (0 : ℚ))],
          [((2 : ℚ), (0 : ℚ))], [((3 : ℚ), (0 : ℚ))]]).getD k []).getD n []
          = ([[((0 : ℚ), (0 : ℚ))], [((1 : ℚ), (0 : ℚ))], [((2 : ℚ), (0 : ℚ))],
            [((3 : ℚ), (0 : ℚ))]] : List (List CQ)).getD (k + 2 * n) [] ∧
        (((kspaces_of 2 [[((0 : ℚ), (0 : ℚ))], [((1 : ℚ), (0 : ℚ))],
          [((2 : ℚ), (0 : ℚ))], [((3 : ℚ), (0 : ℚ))]]).getD k []).getD n []).length
          = 1)) :=
  ⟨⟨by decide, by decide, by decide⟩,
    partition_deinterleaves 2 1 _ (by decide) (by decide) (by decide)⟩

/-- C8: when the echo row count is positive and not divisible by the image
    count, get_images raises (ValueError from the first k-space assignment,
    or ZeroDivisionError when the image count is zero) and the result does
    not depend on the Fourier transform at all: no Fourier work is done, and
    no truncated k-space stack is produced. -/
theorem get_images_fails_fast (fft2 fft2b : List (List CQ) → List (List CQ))
    (N : ℕ) (echoes : List (List CQ)) (hR : 0 < echoes.length)
    (hnd : ¬ N ∣ echoes.length) :
    (∃ e, get_images fft2 N echoes = Except.error e) ∧
    get_images fft2 N echoes = get_images fft2b N echoes := by
  rcases Nat.eq_zero_or_pos N with hN | hN
  · subst hN
    constructor
    · exact ⟨PyErr.zeroDivisionError, by simp [get_images]⟩
    · simp [get_images]
  · have hne : N ≠ 0 := Nat.pos_iff_ne_zero.mp hN
    have herr := kspaces_build_err N echoes hN hnd
    have hmain : ∀ f : List (List CQ) → List (List CQ),
        get_images f N echoes = Except.error PyErr.valueError := by
      intro f
      unfold get_images
      rw [if_neg hne, herr]
      rfl
    exact ⟨⟨PyErr.valueError, hmain fft2⟩, (hmain fft2).trans (hmain fft2b).symm⟩

/-- Witness for get_images_fails_fast: one echo row, image count two, with
    two different stand-ins for np.fft.fft2. -/
theorem get_images_fails_fast_witness :
    (0 < ([[((1 : ℚ), (0 : ℚ))]] : List (List CQ)).length ∧
      ¬ 2 ∣ ([[((1 : ℚ), (0 : ℚ))]] : List (List CQ)).length) ∧
    ((∃ e, get_images (fun m => m) 2 [[((1 : ℚ), (0 : ℚ))]] = Except.error e) ∧
      get_images (fun m => m) 2 [[((1 : ℚ), (0 : ℚ))]]
        = get_images (fun _ => []) 2 [[((1 : ℚ), (0 : ℚ))]]) :=
  ⟨⟨by decide, by decide⟩,
    get_images_fails_fast (fun m => m) (fun _ => []) 2 _ (by decide) (by decide)⟩

/-- Entries of the elementwise magnitude image are nonnegative, including the
    out-of-range default. -/
theorem absL_entry_nonneg (M : List (List CQ)) (i j : ℕ) :
    0 ≤ matGet 0 (absL M) i j := by
  have hrow : ∀ row ∈ absL M, ∀ x ∈ row, 0 ≤ x := by
    intro row hr x hx
    simp only [absL, List.mem_map] at hr
    obtain ⟨r, _, rfl⟩ := hr
    obtain ⟨z, _, rfl⟩ := List.mem_map.mp hx
    exact Real.sqrt_nonneg _
  unfold matGet
  rcases lt_or_ge i (absL M).length with hi | hi
  · have hmem : (absL M).getD i [] ∈ absL M := by
      rw [List.getD_eq_getElem _ _ hi]
      exact List.getElem_mem hi
    exact getD_nonneg _ (hrow _ hmem) j
  · rw [List.getD_eq_default _ _ hi]
    exact getD_nonneg [] (by intro x hx; cases hx) j

/-- C4: the reconstructed image of a k-space is the elementwise absolute
    value of transpose(flip-both-axes(fftshift(fft2(kspace)))) -- the four
    steps in exactly this order -- and is real-valued (its entries live in ℝ
    by type) and nonnegative at every pixel, out-of-range defaults
    included. -/
theorem reconstruct_order_and_nonneg (fft2 : List (List CQ) → List (List CQ))
    (h w : ℕ) (kspace : List (List CQ)) :
    reconstructL fft2 h w kspace
      = absL (transposeL h w (flipL h w (fftshiftL h w (fft2 kspace)))) ∧
    ∀ i j, 0 ≤ matGet 0 (reconstructL fft2 h w kspace) i j :=
  ⟨rfl, fun i j =>
    absL_entry_nonneg (transposeL h w (flipL h w (fftshiftL h w (fft2 kspace)))) i j⟩

/-- C3: reorder_forT1IR maps inversion-time-major order to slice-major
    order: with nI inversion times and S = count/nI slices per inversion
    time, output image s*nI + t is input image t*S + s, and the leading
    shape entry is unchanged. The divisibility hypothesis is the numpy
    reshape precondition of line 167. -/
theorem reorder_slice_major {α : Type} (nI : ℕ) (images : ℕ × (ℕ → α))
    (t s : ℕ) (hdvd : nI ∣ images.1) (ht : t < nI) (hs : s < images.1 / nI) :
    (reorder_forT1IR nI images).1 = images.1 ∧
    (reorder_forT1IR nI images).2 (s * nI + t)
      = images.2 (t * (images.1 / nI) + s) := by
  refine ⟨rfl, ?_⟩
  have hnI : 0 < nI := Nat.lt_of_le_of_lt (Nat.zero_le t) ht
  have hdiv : (s * nI + t) / nI = s := by
    rw [Nat.add_comm, Nat.add_mul_div_right _ _ hnI, Nat.div_eq_of_lt ht,
      Nat.zero_add]
  have hmod : (s * nI + t) % nI = t := by
    rw [Nat.add_comm, Nat.add_mul_mod_self_right, Nat.mod_eq_of_lt ht]
  simp only [reorder_forT1IR, flatten2, transpose2, reshape2, hdiv, hmod]

/-- Witness for reorder_slice_major: six images, two inversion times, three
    slices; output index 2*2+1 holds input image 1*3+2. -/
theorem reorder_slice_major_witness :
    (2 ∣ (((6 : ℕ), fun n : ℕ => n) : ℕ × (ℕ → ℕ)).1 ∧ 1 < 2 ∧
      2 < (((6 : ℕ), fun n : ℕ => n) : ℕ × (ℕ → ℕ)).1 / 2) ∧
    ((reorder_forT1IR 2 (((6 : ℕ), fun n : ℕ => n) : ℕ × (ℕ → ℕ))).1
        = (((6 : ℕ), fun n : ℕ => n) : ℕ × (ℕ → ℕ)).1 ∧
      (reorder_forT1IR 2 (((6 : ℕ), fun n : ℕ => n) : ℕ × (ℕ → ℕ))).2 (2 * 2 + 1)
        = (((6 : ℕ), fun n : ℕ => n) : ℕ × (ℕ → ℕ)).2
            (1 * ((((6 : ℕ), fun n : ℕ => n) : ℕ × (ℕ → ℕ)).1 / 2) + 2)) :=
  ⟨⟨by decide, by decide, by decide⟩,
    reorder_slice_major 2 ((6 : ℕ), fun n : ℕ => n) 1 2 (by decide) (by decide)
      (by decide)⟩

/-- C7: the per-pixel regression bounds are computed from that pixel's own
    sample maximum m = max(slice1[:, k, j]): T1 bounds
    ([0.001, 0.9m, -(m/100+1), 1.85], [7000, 2m+1, m/100+1, 2.05]) and T2
    bounds ([0.001, 0.9m, -(m/100+1)], [4000, 2m+1, m/100+1]), decimal
    constants written as exact rationals. This is definitional: the source
    lists exactly these bounds at lines 100-104. -/
theorem task_bounds_data_adaptive (slice1 : List Mat2) (k j : ℕ) :
    taskBounds true (pointsAt slice1 k j)
      = ([1 / 1000, npMax (pointsAt slice1 k j) * (9 / 10),
          -(npMax (pointsAt slice1 k j) / 100 + 1), 37 / 20],
         [7000, 2 * npMax (pointsAt slice1 k j) + 1,
          npMax (pointsAt slice1 k j) / 100 + 1, 41 / 20]) ∧
    taskBounds false (pointsAt slice1 k j)
      = ([1 / 1000, npMax (pointsAt slice1 k j) * (9 / 10),
          -(npMax (pointsAt slice1 k j) / 100 + 1)],
         [4000, 2 * npMax (pointsAt slice1 k j) + 1,
          npMax (pointsAt slice1 k j) / 100 + 1]) :=
  ⟨rfl, rfl⟩

/-- C2: whenever curve_fit fails to converge within its budget of 1000
    function evaluations (the maxfev argument of line 108) at a pixel, task
    returns exactly the sentinel parameters: relaxation time 1e-6,
    equilibrium magnetization equal to that pixel's observed sample maximum,
    offset 0 and, for T1 only, inversion efficiency 2. The RuntimeError is
    absorbed by the try/except (task is a total function), and a curve_fit
    failing at every pixel still yields full-length map stacks from
    calculate_maps: one unfittable pixel never aborts the map
    computation. -/
theorem task_sentinel_on_failure :
    (∀ (cf : CurveFit) (isT1 : Bool) (T_train : List ℚ) (slice1 : List Mat2)
      (k j : ℕ),
      cf isT1 T_train (pointsAt slice1 k j)
          (taskBounds isT1 (pointsAt slice1 k j)) 1000 = Except.error () →
      task cf isT1 T_train slice1 k j
        = if isT1 then [1 / 1000000, npMax (pointsAt slice1 k j), 0, 2]
          else [1 / 1000000, npMax (pointsAt slice1 k j), 0]) ∧
    (∀ (isT1 : Bool) (T_train : List ℚ) (images : List Mat2),
      (calculate_maps cf_fail isT1 T_train images).1.length
          = images.length / T_train.length ∧
      (calculate_maps cf_fail isT1 T_train images).2.1.length
          = images.length / T_train.length ∧
      (calculate_maps cf_fail isT1 T_train images).2.2.length
          = images.length / T_train.length) := by
  constructor
  · intro cf isT1 T_train slice1 k j hfail
    simp [task, hfail]
  · intro isT1 T_train images
    refine ⟨?_, ?_, ?_⟩ <;> simp [calculate_maps]

/-- Witness for task_sentinel_on_failure: a single 1x1 image with value 5
    and an always-failing curve_fit; the sentinel T1 parameters appear. -/
theorem task_sentinel_on_failure_witness :
    cf_fail true [1] (pointsAt [[[(5 : ℚ)]]] 0 0)
        (taskBounds true (pointsAt [[[(5 : ℚ)]]] 0 0)) 1000 = Except.error () ∧
    task cf_fail true [1] [[[(5 : ℚ)]]] 0 0
      = [1 / 1000000, npMax (pointsAt [[[(5 : ℚ)]]] 0 0), 0, 2] :=
  ⟨rfl, by
    have h := task_sentinel_on_failure.1 cf_fail true [1] [[[(5 : ℚ)]]] 0 0 rfl
    simpa using h⟩

/-- Single step of the theoret_MRI loop only allocates a fresh cell and
    writes to that fresh cell, so every previously existing cell keeps its
    contents. -/
theorem tm_step_pres (fexp : ℚ → ℚ) (isT1 : Bool) (T_wish : List ℕ)
    (Ta Moa Ca : List ℕ) (st0 : Store Mat2) (s : TMState) (ij : ℕ × ℕ)
    (h1 : st0.cells.length ≤ s.store.cells.length)
    (h2 : ∀ a, a < st0.cells.length → readC [] s.store a = readC [] st0 a) :
    st0.cells.length
        ≤ (tm_step fexp isT1 T_wish Ta Moa Ca s ij).store.cells.length ∧
    ∀ a, a < st0.cells.length →
      readC [] (tm_step fexp isT1 T_wish Ta Moa Ca s ij).store a
        = readC [] st0 a := by
  constructor
  · simp only [tm_step, alloc, writeC]
    simp
    omega
  · intro a ha
    have haS : a < s.store.cells.length := lt_of_lt_of_le ha h1
    simp only [tm_step, alloc, writeC, readC]
    rw [List.getD_eq_getElem?_getD, List.getElem?_set_ne (by omega),
      List.getElem?_append_left haS, ← List.getD_eq_getElem?_getD]
    exact h2 a ha

/-- Folding the theoret_MRI loop preserves all cells existing before the
    call. -/
theorem tm_foldl_pres (fexp : ℚ → ℚ) (isT1 : Bool) (T_wish : List ℕ)
    (Ta Moa Ca : List ℕ) (st0 : Store Mat2) :
    ∀ (l : List (ℕ × ℕ)) (s : TMState),
      st0.cells.length ≤ s.store.cells.length →
      (∀ a, a < st0.cells.length → readC [] s.store a = readC [] st0 a) →
      st0.cells.length
          ≤ ((l.foldl (tm_step fexp isT1 T_wish Ta Moa Ca) s)).store.cells.length ∧
      ∀ a, a < st0.cells.length →
        readC [] ((l.foldl (tm_step fexp isT1 T_wish Ta Moa Ca) s)).store a
          = readC [] st0 a := by
  intro l
  induction l with
  | nil => exact fun s h1 h2 => ⟨h1, h2⟩
  | cons ij rest ih =>
      intro s h1 h2
      have h := tm_step_pres fexp isT1 T_wish Ta Moa Ca st0 s ij h1 h2
      exact ih _ h.1 h.2

/-- C9: the fitting and synthesis stages do not mutate arrays owned by
    earlier stages. calculate_maps only reads its image stack (its heap
    lifting returns the store unchanged: the loop bodies perform no in-place
    array operation), and theoret_MRI writes only to the arrays it freshly
    allocates, so every parametric-map cell (and any other pre-existing
    cell) is unchanged after it runs. -/
theorem maps_and_images_not_mutated :
    (∀ (cf : CurveFit) (isT1 : Bool) (T_train : List ℚ) (imagesAddr : ℕ)
        (st : Store (List Mat2)),
      (calculate_maps_heap cf isT1 T_train imagesAddr st).1 = st) ∧
    (∀ (fexp : ℚ → ℚ) (isT1 : Bool) (T_wish : List ℕ) (Ta Moa Ca : List ℕ)
        (st0 : Store Mat2) (a : ℕ), a < st0.cells.length →
      readC [] (theoret_MRI fexp isT1 T_wish Ta Moa Ca st0).store a
        = readC [] st0 a) := by
  constructor
  · intro cf isT1 T_train imagesAddr st
    rfl
  · intro fexp isT1 T_wish Ta Moa Ca st0 a ha
    exact (tm_foldl_pres fexp isT1 T_wish Ta Moa Ca st0
      (tm_pairs T_wish.length Moa.length) { store := st0, imgs := [], files := [] }
      (le_refl _) (fun _ _ => rfl)).2 a ha

/-- Witness for maps_and_images_not_mutated: one map cell, one requested
    time, one run; the cell at address 0 is unchanged by theoret_MRI. -/
theorem maps_and_images_not_mutated_witness :
    0 < (Store.mk [[[(1 : ℚ)]]] : Store Mat2).cells.length ∧
    readC [] (theoret_MRI (fun q => q) false [1] [0] [0] [0]
        (Store.mk [[[(1 : ℚ)]]])).store 0
      = readC [] (Store.mk [[[(1 : ℚ)]]] : Store Mat2) 0 :=
  ⟨by decide,
    maps_and_images_not_mutated.2 (fun q => q) false [1] [0] [0] [0]
      (Store.mk [[[(1 : ℚ)]]]) 0 (by decide)⟩

theorem digitsLE_lt_ten : ∀ (fuel n d : ℕ), d ∈ digitsLE fuel n → d < 10 := by
  intro fuel
  induction fuel with
  | zero => intro n d hd; cases hd
  | succ f ih =>
      intro n d hd
      by_cases hn : n = 0
      · rw [digitsLE, if_pos hn] at hd
        cases hd
      · rw [digitsLE, if_neg hn] at hd
        rcases List.mem_cons.mp hd with h | h
        · subst h
          exact Nat.mod_lt _ (by norm_num)
        · exact ih _ _ h

theorem ofDigitsLE_digitsLE : ∀ (fuel n : ℕ), n ≤ fuel →
    ofDigitsLE (digitsLE fuel n) = n := by
  intro fuel
  induction fuel with
  | zero =>
      intro n hn
      have : n = 0 := Nat.le_zero.mp hn
      subst this
      rfl
  | succ f ih =>
      intro n hn
      by_cases hn0 : n = 0
      · subst hn0; rfl
      · rw [digitsLE, if_neg hn0]
        have hdiv : n / 10 ≤ f := by
          have h1 : n / 10 < n := Nat.div_lt_self (Nat.pos_of_ne_zero hn0) (by norm_num)
          omega
        show n % 10 + 10 * ofDigitsLE (digitsLE f (n / 10)) = n
        rw [ih _ hdiv, Nat.mod_add_div]

theorem digitChar_inj_lt : ∀ d < 10, ∀ e < 10, digitChar d = digitChar e → d = e := by
  decide

theorem digitChar_ne_under : ∀ d < 10, digitChar d ≠ '_' := by
  decide

theorem natStr_no_under (n : ℕ) : ∀ c ∈ natStr n, c ≠ '_' := by
  intro c hc
  by_cases hn : n = 0
  · subst hn
    have h0 : natStr 0 = [digitChar 0] := rfl
    rw [h0, List.mem_singleton] at hc
    subst hc
    exact digitChar_ne_under 0 (by norm_num)
  · rw [natStr, if_neg hn] at hc
    obtain ⟨d, hd, rfl⟩ := List.mem_map.mp hc
    exact digitChar_ne_under d
      (digitsLE_lt_ten n n d (List.mem_reverse.mp hd))

theorem map_digitChar_inj : ∀ (l1 l2 : List ℕ), (∀ d ∈ l1, d < 10) →
    (∀ d ∈ l2, d < 10) → l1.map digitChar = l2.map digitChar → l1 = l2 := by
  intro l1
  induction l1 with
  | nil =>
      intro l2 _ _ h
      cases l2 with
      | nil => rfl
      | cons b bs => simp at h
  | cons a as ih =>
      intro l2 h1 h2 h
      cases l2 with
      | nil => simp at h
      | cons b bs =>
          simp only [List.map_cons, List.cons.injEq] at h
          have ha : a = b := digitChar_inj_lt a (h1 a (List.mem_cons_self a as)) b
            (h2 b (List.mem_cons_self b bs)) h.1
          have hs : as = bs := ih bs (fun d hd => h1 d (List.mem_cons_of_mem _ hd))
            (fun d hd => h2 d (List.mem_cons_of_mem _ hd)) h.2
          rw [ha, hs]

theorem natStr_inj (m n : ℕ) (h : natStr m = natStr n) : m = n := by
  by_cases hm : m = 0 <;> by_cases hn : n = 0
  · omega
  · exfalso
    rw [natStr, if_pos hm, natStr, if_neg hn] at h
    have hlen : (1 : ℕ) = ((digitsLE n n).reverse.map digitChar).length := by
      rw [← h]; rfl
    rw [List.length_map] at hlen
    obtain ⟨a, ha⟩ := List.length_eq_one.mp hlen.symm
    rw [ha] at h
    simp only [List.map_cons, List.map_nil, List.cons.injEq] at h
    have ha10 : a < 10 := by
      refine digitsLE_lt_ten n n a (List.mem_reverse.mp ?_)
      rw [ha]; exact List.mem_singleton.mpr rfl
    have ha0 : 0 = a := digitChar_inj_lt 0 (by norm_num) a ha10 h.1
    have hrev : digitsLE n n = [a] := by
      have := congrArg List.reverse ha
      simpa using this
    have hval := ofDigitsLE_digitsLE n n (le_refl n)
    rw [hrev] at hval
    have : a + 10 * 0 = n := hval
    omega
  · exfalso
    rw [natStr, if_neg hm, natStr, if_pos hn] at h
    have hlen : ((digitsLE m m).reverse.map digitChar).length = (1 : ℕ) := by
      rw [h]; rfl
    rw [List.length_map] at hlen
    obtain ⟨a, ha⟩ := List.length_eq_one.mp hlen
    rw [ha] at h
    simp only [List.map_cons, List.map_nil, List.cons.injEq] at h
    have ha10 : a < 10 := by
      refine digitsLE_lt_ten m m a (List.mem_reverse.mp ?_)
      rw [ha]; exact List.mem_singleton.mpr rfl
    have ha0 : a = 0 := digitChar_inj_lt a ha10 0 (by norm_num) h.1
    have hrev : digitsLE m m = [a] := by
      have := congrArg List.reverse ha
      simpa using this
    have hval := ofDigitsLE_digitsLE m m (le_refl m)
    rw [hrev] at hval
    have : a + 10 * 0 = m := hval
    omega
  · rw [natStr, if_neg hm, natStr, if_neg hn] at h
    have hdig := map_digitChar_inj (digitsLE m m).reverse (digitsLE n n).reverse
      (fun d hd => digitsLE_lt_ten m m d (List.mem_reverse.mp hd))
      (fun d hd => digitsLE_lt_ten n n d (List.mem_reverse.mp hd)) h
    have hdig2 : digitsLE m m = digitsLE n n := List.reverse_inj.mp hdig
    have h1 := ofDigitsLE_digitsLE m m (le_refl m)
    have h2 := ofDigitsLE_digitsLE n n (le_refl n)
    rw [hdig2] at h1
    omega

theorem split_at_under : ∀ (xs ys r r2 : List Char), (∀ c ∈ xs, c ≠ '_') →
    (∀ c ∈ ys, c ≠ '_') → xs ++ '_' :: r = ys ++ '_' :: r2 →
    xs = ys ∧ r = r2 := by
  intro xs
  induction xs with
  | nil =>
      intro ys r r2 _ hys h
      cases ys with
      | nil => simpa using h
      | cons b bs =>
          exfalso
          simp only [List.nil_append, List.cons_append, List.cons.injEq] at h
          exact hys b (List.mem_cons_self b bs) h.1.symm
  | cons a xs2 ih =>
      intro ys r r2 hxs hys h
      cases ys with
      | nil =>
          exfalso
          simp only [List.cons_append, List.nil_append, List.cons.injEq] at h
          exact hxs a (List.mem_cons_self a xs2) h.1
      | cons b bs =>
          simp only [List.cons_append, List.cons.injEq] at h
          have := ih bs r r2 (fun c hc => hxs c (List.mem_cons_of_mem _ hc))
            (fun c hc => hys c (List.mem_cons_of_mem _ hc)) h.2
          exact ⟨by rw [h.1, this.1], this.2⟩

theorem fname_inj (isT1 : Bool) (j t j2 t2 : ℕ)
    (h : fname isT1 j t = fname isT1 j2 t2) : j = j2 ∧ t = t2 := by
  unfold fname at h
  rw [List.append_assoc, List.append_assoc] at h
  have h1 : natStr (j + 1) ++ '_' :: (weightLbl isT1 ++ '_' :: (natStr t ++ msSuffix))
      = natStr (j2 + 1) ++ '_' :: (weightLbl isT1 ++ '_' :: (natStr t2 ++ msSuffix)) :=
    List.append_cancel_left h
  have h2 := split_at_under (natStr (j + 1)) (natStr (j2 + 1)) _ _
    (natStr_no_under (j + 1)) (natStr_no_under (j2 + 1)) h1
  have hj : j = j2 := by
    have := natStr_inj (j + 1) (j2 + 1) h2.1
    omega
  have h3 : '_' :: (natStr t ++ msSuffix) = '_' :: (natStr t2 ++ msSuffix) :=
    List.append_cancel_left h2.2
  have h3b : natStr t ++ msSuffix = natStr t2 ++ msSuffix := by
    simpa using h3
  have h4 := List.append_inj' h3b rfl
  exact ⟨hj, natStr_inj t t2 h4.1⟩

theorem tm_step_files_eq (fexp : ℚ → ℚ) (isT1 : Bool) (T_wish : List ℕ)
    (Ta Moa Ca : List ℕ) (s : TMState) (ij : ℕ × ℕ) :
    (tm_step fexp isT1 T_wish Ta Moa Ca s ij).files
      = s.files ++ [fname isT1 ij.2 (T_wish.getD ij.1 0)] := rfl

theorem tm_step_imgs_len (fexp : ℚ → ℚ) (isT1 : Bool) (T_wish : List ℕ)
    (Ta Moa Ca : List ℕ) (s : TMState) (ij : ℕ × ℕ) :
    (tm_step fexp isT1 T_wish Ta Moa Ca s ij).imgs.length
      = s.imgs.length + 1 := by
  show (s.imgs ++ [_]).length = _
  simp

theorem tm_foldl_files (fexp : ℚ → ℚ) (isT1 : Bool) (T_wish : List ℕ)
    (Ta Moa Ca : List ℕ) :
    ∀ (l : List (ℕ × ℕ)) (s : TMState),
      (l.foldl (tm_step fexp isT1 T_wish Ta Moa Ca) s).files
          = s.files ++ l.map (fun ij => fname isT1 ij.2 (T_wish.getD ij.1 0)) ∧
      (l.foldl (tm_step fexp isT1 T_wish Ta Moa Ca) s).imgs.length
          = s.imgs.length + l.length := by
  intro l
  induction l with
  | nil => intro s; simp
  | cons ij rest ih =>
      intro s
      have h := ih (tm_step fexp isT1 T_wish Ta Moa Ca s ij)
      constructor
      · rw [List.foldl_cons, h.1, tm_step_files_eq]
        simp [List.append_assoc]
      · rw [List.foldl_cons, h.2, tm_step_imgs_len]
        simp only [List.length_cons]
        omega

theorem tm_pairs_eq_product (R K : ℕ) :
    tm_pairs R K = List.range R ×ˢ List.range K := rfl

theorem tm_pairs_nodup (R K : ℕ) : (tm_pairs R K).Nodup := by
  rw [tm_pairs_eq_product]
  exact List.Nodup.product (List.nodup_range R) (List.nodup_range K)

theorem tm_pairs_mem (R K : ℕ) (p : ℕ × ℕ) (hp : p ∈ tm_pairs R K) :
    p.1 < R ∧ p.2 < K := by
  rcases p with ⟨a, b⟩
  rw [tm_pairs_eq_product] at hp
  simpa [List.mem_range] using hp

theorem tm_pairs_length (R K : ℕ) : (tm_pairs R K).length = R * K := by
  rw [tm_pairs_eq_product, List.length_product, List.length_range,
    List.length_range]

/-- C5 (amended): a synthesis call with R requested times and K runs appends
    exactly R*K images to TheoretImgs, and saves R*K files in the order
    outer loop over requested times, inner loop over runs, each filename
    encoding the 1-based run index, the TI/TE label and the requested time
    in milliseconds; the filenames are pairwise distinct provided the
    requested times are pairwise distinct. (As stated the claim fails for
    duplicate requested times: see the counterexample.) -/
theorem synth_count_order_names (fexp : ℚ → ℚ) (isT1 : Bool)
    (T_wish : List ℕ) (Ta Moa Ca : List ℕ) (st0 : Store Mat2)
    (hdist : T_wish.Nodup) :
    (theoret_MRI fexp isT1 T_wish Ta Moa Ca st0).imgs.length
        = T_wish.length * Moa.length ∧
    (theoret_MRI fexp isT1 T_wish Ta Moa Ca st0).files
        = (tm_pairs T_wish.length Moa.length).map
            (fun ij => fname isT1 ij.2 (T_wish.getD ij.1 0)) ∧
    (theoret_MRI fexp isT1 T_wish Ta Moa Ca st0).files.Nodup := by
  have h := tm_foldl_files fexp isT1 T_wish Ta Moa Ca
    (tm_pairs T_wish.length Moa.length)
    { store := st0, imgs := [], files := [] }
  refine ⟨?_, ?_, ?_⟩
  · show (List.foldl (tm_step fexp isT1 T_wish Ta Moa Ca) _ _).imgs.length = _
    rw [h.2]
    simp [tm_pairs_length]
  · show (List.foldl (tm_step fexp isT1 T_wish Ta Moa Ca) _ _).files = _
    rw [h.1]
    simp
  · show (List.foldl (tm_step fexp isT1 T_wish Ta Moa Ca) _ _).files.Nodup
    rw [h.1]
    simp only [List.nil_append]
    refine List.Nodup.map_on ?_ (tm_pairs_nodup _ _)
    intro p hp q hq heq
    have hpb := tm_pairs_mem _ _ p hp
    have hqb := tm_pairs_mem _ _ q hq
    have hinj := fname_inj isT1 p.2 (T_wish.getD p.1 0) q.2
      (T_wish.getD q.1 0) heq
    have hp1 : p.1 < T_wish.length := hpb.1
    have hq1 : q.1 < T_wish.length := hqb.1
    have e1 : T_wish.getD p.1 0 = T_wish[p.1] :=
      List.getD_eq_getElem _ _ hp1
    have e2 : T_wish.getD q.1 0 = T_wish[q.1] :=
      List.getD_eq_getElem _ _ hq1
    have h1 : p.1 = q.1 := by
      rw [e1, e2] at hinj
      exact hdist.getElem_inj_iff.mp hinj.2
    exact Prod.ext h1 hinj.1

/-- Witness for synth_count_order_names: two distinct requested times and
    one run give two images and two distinct filenames. -/
theorem synth_count_order_names_witness :
    ([1, 2] : List ℕ).Nodup ∧
    ((theoret_MRI (fun q => q) false [1, 2] [0] [0] [0]
        (Store.mk [[[(1 : ℚ)]]])).imgs.length
        = ([1, 2] : List ℕ).length * ([0] : List ℕ).length ∧
      (theoret_MRI (fun q => q) false [1, 2] [0] [0] [0]
        (Store.mk [[[(1 : ℚ)]]])).files
        = (tm_pairs ([1, 2] : List ℕ).length ([0] : List ℕ).length).map
            (fun ij => fname false ij.2 (([1, 2] : List ℕ).getD ij.1 0)) ∧
      (theoret_MRI (fun q => q) false [1, 2] [0] [0] [0]
        (Store.mk [[[(1 : ℚ)]]])).files.Nodup) :=
  ⟨by decide,
    synth_count_order_names (fun q => q) false [1, 2] [0] [0] [0]
      (Store.mk [[[(1 : ℚ)]]]) (by decide)⟩

/-- Counterexample to C5 as stated: with duplicate requested times [1, 1]
    and one run, both loop iterations save the file slice_1_TE_1ms.png, so
    the persisted filenames of the call are not pairwise distinct (the
    second save overwrites the first). -/
theorem synth_names_clash :
    ¬ (theoret_MRI (fun q => q) false [1, 1] [0] [0] [0]
        (Store.mk [[[(1 : ℚ)]]])).files.Nodup := by
  decide

/-- C6 exhibit: line 156 appends a reference to SI_image to TheoretImgs and
    line 158 then rescales that same array in place, so the list returned to
    the caller holds the rescaled arrays, not the raw model evaluations.
    With the T2 map triple T = [[1]], Mo = [[1]], C = [[0]] and requested
    time 0 (where exp(0) = 1 exactly, also in floating point), the array
    reachable through the returned TheoretImgs entry is [[255]], while the
    raw model evaluation is [[1]]. -/
theorem returned_image_is_rescaled (fexp : ℚ → ℚ) (hexp : fexp 0 = 1) :
    readC [] (theoret_MRI fexp false [0] [0] [1] [2]
        (Store.mk [[[(1 : ℚ)]], [[(1 : ℚ)]], [[(0 : ℚ)]]])).store
      ((theoret_MRI fexp false [0] [0] [1] [2]
        (Store.mk [[[(1 : ℚ)]], [[(1 : ℚ)]], [[(0 : ℚ)]]])).imgs.getD 0 0)
      = [[(255 : ℚ)]] ∧
    T2_image fexp 0 [[(1 : ℚ)]] [[(1 : ℚ)]] [[(0 : ℚ)]] = [[(1 : ℚ)]] ∧
    (255 : ℚ) ≠ 1 := by
  have hSI : T2_image fexp 0 [[(1 : ℚ)]] [[(1 : ℚ)]] [[(0 : ℚ)]]
      = [[(1 : ℚ)]] := by
    simp [T2_image, elemwise3, T2_function, hexp]
  refine ⟨?_, hSI, by norm_num⟩
  have hstep : theoret_MRI fexp false [0] [0] [1] [2]
      (Store.mk [[[(1 : ℚ)]], [[(1 : ℚ)]], [[(0 : ℚ)]]])
      = tm_step fexp false [0] [0] [1] [2]
        { store := Store.mk [[[(1 : ℚ)]], [[(1 : ℚ)]], [[(0 : ℚ)]]],
          imgs := [], files := [] } (0, 0) := rfl
  rw [hstep]
  show readC [] (writeC (Store.mk ([[[(1 : ℚ)]], [[(1 : ℚ)]], [[(0 : ℚ)]]]
      ++ [SI_of fexp false ((0 : ℕ) : ℚ) [[(1 : ℚ)]] [[(1 : ℚ)]] [[(0 : ℚ)]]]))
      3 (rescaleQ (SI_of fexp false ((0 : ℕ) : ℚ) [[(1 : ℚ)]] [[(1 : ℚ)]]
        [[(0 : ℚ)]]))) 3 = [[(255 : ℚ)]]
  have hSI2 : SI_of fexp false ((0 : ℕ) : ℚ) [[(1 : ℚ)]] [[(1 : ℚ)]]
      [[(0 : ℚ)]] = [[(1 : ℚ)]] := by
    rw [SI_of]
    simpa using hSI
  rw [hSI2]
  show rescaleQ [[(1 : ℚ)]] = [[(255 : ℚ)]]
  norm_num [rescaleQ, npMax2, npMax]

/-- Witness for returned_image_is_rescaled: the constant-one exp model
    satisfies exp(0) = 1. -/
theorem returned_image_is_rescaled_witness :
    (fun _ : ℚ => (1 : ℚ)) 0 = 1 ∧
    (readC [] (theoret_MRI (fun _ : ℚ => (1 : ℚ)) false [0] [0] [1] [2]
        (Store.mk [[[(1 : ℚ)]], [[(1 : ℚ)]], [[(0 : ℚ)]]])).store
      ((theoret_MRI (fun _ : ℚ => (1 : ℚ)) false [0] [0] [1] [2]
        (Store.mk [[[(1 : ℚ)]], [[(1 : ℚ)]], [[(0 : ℚ)]]])).imgs.getD 0 0)
      = [[(255 : ℚ)]] ∧
    T2_image (fun _ : ℚ => (1 : ℚ)) 0 [[(1 : ℚ)]] [[(1 : ℚ)]] [[(0 : ℚ)]]
      = [[(1 : ℚ)]] ∧
    (255 : ℚ) ≠ 1) :=
  ⟨rfl, returned_image_is_rescaled (fun _ : ℚ => (1 : ℚ)) rfl⟩

/-- C10: for the map triple T = [[1]], Mo = [[0]], C = [[0]] the synthesized
    T2 image is identically zero for every exp model and every requested
    time, its maximum is 0, so the rescaling statement divides 255 by zero
    (giving +inf) and multiplies the zero pixels by it, leaving every pixel
    NaN -- non-finite -- under IEEE semantics; and theoret_MRI has no guard:
    the image of that run is still saved (its filename entry is produced)
    rather than the division failing or being skipped. -/
theorem rescale_zero_max_nonfinite (fexp : ℚ → ℚ) (t : ℕ) :
    SI_of fexp false (t : ℚ) [[(1 : ℚ)]] [[(0 : ℚ)]] [[(0 : ℚ)]]
        = [[(0 : ℚ)]] ∧
    npMax2 [[(0 : ℚ)]] = 0 ∧
    fdiv 255 (npMax2 [[(0 : ℚ)]]) = FVal.inf ∧
    rescaleF [[(0 : ℚ)]] = [[FVal.nan]] ∧
    isFiniteF FVal.nan = false ∧
    (theoret_MRI fexp false [t] [0] [1] [2]
        (Store.mk [[[(1 : ℚ)]], [[(0 : ℚ)]], [[(0 : ℚ)]]])).files
      = [fname false 0 t] := by
  refine ⟨?_, by decide, by decide, by decide, rfl, rfl⟩
  simp [SI_of, T2_image, elemwise3, T2_function]
